import Mathlib

/-
  Verification of the Enigma-machine simulator (src/src/enigma.rs and friends).

  Strings are modelled as lists of natural-number character codes (UTF-16
  units / Unicode scalar values; all data of interest is ASCII, where both
  coincide).  Rust operations that can panic (`unwrap` on `None`, u16/u32
  subtraction underflow under debug semantics) are modelled by returning
  `none`, so every fallible operation lives in `Option`.
-/

namespace Enigma

/-- Character codes of a string literal, for writing concrete test vectors. -/
def sc (s : String) : List Nat := s.toList.map Char.toNat

/-- Validity test of `char::from_u32`: a scalar value, i.e. below the
surrogate range or above it and below 0x110000. -/
def validCharNat (n : Nat) : Bool := n < 55296 || (57343 < n && n < 1114112)

/-- `s.chars().nth(i)` on a code list: the i-th code if it exists. -/
def nthCode : List Nat → Nat → Option Nat
  | [], _ => none
  | c :: _, 0 => some c
  | _ :: rest, n + 1 => nthCode rest n

/-- `s.find(c)` on a code list: index of the first occurrence of `c`
(char index; equal to the Rust byte index on the ASCII data in use). -/
def findIndex : List Nat → Nat → Option Nat
  | [], _ => none
  | x :: rest, c => if x = c then some 0 else (findIndex rest c).map (· + 1)

/-- The struct `EnigmaWheel` of src/src/enigma.rs: a wiring (`cipher`),
a rotor position and a ring setting (both stored mod 26 by all code paths
that write them), and the turnover trigger positions. -/
structure EnigmaWheel where
  cipher : List Nat
  rotor_position : Nat
  ring_setting : Nat
  triggers : List Nat
deriving DecidableEq, Repr

/-- `EnigmaWheel::new`: stores the cipher unchanged and the offset and
setting reduced mod 26 (`checked_rem(26)` never fails), with no triggers. -/
def EnigmaWheel.new (new_cipher : List Nat) (new_offset : Nat) (new_setting : Nat) :
    EnigmaWheel :=
  ⟨new_cipher, new_offset % 26, new_setting % 26, []⟩

/-- Body of the loop of `EnigmaWheel::encipher` (Cipher impl) for one
UTF-16 unit.  For a letter: zero-base, shift by `26 - rotor_position`
mod 26, look the index up in the wiring, add the ring setting pulling back
into letter range, re-encode as a char.  Panics (`none`): wiring too short,
or `char::from_u32` on an invalid scalar. -/
def EnigmaWheel.encipher_char (w : EnigmaWheel) (code : Nat) : Option Nat :=
  if 64 < code ∧ code < 91 then
    (nthCode w.cipher ((code - 65 + (26 - w.rotor_position)) % 26)).bind fun ec =>
      let ec2 := ec + w.ring_setting
      let ec3 := if ec2 > 90 then ec2 - 26 else ec2
      if validCharNat ec3 then some ec3 else none
  else if validCharNat code then some code else none

/-- `EnigmaWheel::encipher` over a whole message, one unit at a time. -/
def EnigmaWheel.encipher (w : EnigmaWheel) : List Nat → Option (List Nat)
  | [] => some []
  | c :: rest =>
    (w.encipher_char c).bind fun o => (w.encipher rest).map fun os => o :: os

/-- Body of the loop of `EnigmaWheel::decipher` (Cipher impl) for one
character.  For a letter: undo the ring-setting shift (u32 subtraction,
debug-panics on underflow, modelled as `none`; then add 26 if below 'A'),
find the letter in the wiring, add `rotor_position` mod 26, convert back
to a letter code.  Panics (`none`): letter not found in the wiring. -/
def EnigmaWheel.decipher_char (w : EnigmaWheel) (chr : Nat) : Option Nat :=
  if 64 < chr ∧ chr < 91 then
    if chr < w.ring_setting then none
    else
      let code0 := chr - w.ring_setting
      let code := if code0 < 65 then code0 + 26 else code0
      if validCharNat code then
        (findIndex w.cipher code).bind fun d =>
          let decoded := (d + w.rotor_position) % 26 + 65
          if validCharNat decoded then some decoded else none
      else none
  else some chr

/-- `EnigmaWheel::decipher` over a whole message. -/
def EnigmaWheel.decipher (w : EnigmaWheel) : List Nat → Option (List Nat)
  | [] => some []
  | c :: rest =>
    (w.decipher_char c).bind fun o => (w.decipher rest).map fun os => o :: os

/-- `EnigmaWheel::rotate` (Enigma impl): increments `rotor_position` by 1
mod 26 and reports whether the new position equals one of the triggers. -/
def EnigmaWheel.rotate (w : EnigmaWheel) : EnigmaWheel × Bool :=
  let rp := (w.rotor_position + 1) % 26
  (⟨w.cipher, rp, w.ring_setting, w.triggers⟩, w.triggers.contains rp)

/-- `EnigmaWheel::set_rotor_position`: stores the given position mod 26. -/
def EnigmaWheel.set_rotor_position (w : EnigmaWheel) (rotor_position : Nat) :
    EnigmaWheel :=
  ⟨w.cipher, rotor_position % 26, w.ring_setting, w.triggers⟩

/-- `EnigmaWheel::set_triggers`: replaces the trigger list. -/
def EnigmaWheel.set_triggers (w : EnigmaWheel) (triggers : List Nat) : EnigmaWheel :=
  ⟨w.cipher, w.rotor_position, w.ring_setting, triggers⟩

/-- `EnigmaWheel::right_to_left` (Enigma impl): index the wiring at
`(position + rotor_position - 1) % 26` (u16 subtraction: debug-panics,
modelled `none`, when `position + rotor_position = 0`), then re-express the
wiring letter as a position in the next component's frame.
`chr as u16 - 64` likewise debug-panics when the wiring holds a code
below 64. -/
def EnigmaWheel.right_to_left (w : EnigmaWheel) (position : Nat) : Option Nat :=
  if position + w.rotor_position = 0 then none
  else
    (nthCode w.cipher ((position + w.rotor_position - 1) % 26)).bind fun chr =>
      if chr < 64 then none
      else some ((26 - w.rotor_position + (chr - 64)) % 26)

/-- `EnigmaWheel::left_to_right` (Enigma impl): find the letter with code
`(position + rotor_position) % 26 + 64` in the wiring (panicking, `none`,
when it is absent — in particular when that code is 64, the character '@'),
and re-express its index as a position in the neighbouring frame. -/
def EnigmaWheel.left_to_right (w : EnigmaWheel) (position : Nat) : Option Nat :=
  let index := (position + w.rotor_position) % 26
  if validCharNat (index + 64) then
    (findIndex w.cipher (index + 64)).bind fun decoded =>
      some ((26 - w.rotor_position + (decoded + 1)) % 26)
  else none

/-- The struct `EnigmaMachine` of src/src/enigma.rs: plugboard, three
rotating wheels and a reflector. -/
structure EnigmaMachine where
  plugboard : EnigmaWheel
  right_wheel : EnigmaWheel
  middle_wheel : EnigmaWheel
  left_wheel : EnigmaWheel
  reflector : EnigmaWheel
deriving DecidableEq, Repr

/-- `EnigmaMachine::new`: plugboard and reflector are built with offset 0
and ring setting 0; the three wheels receive their offsets and settings. -/
def EnigmaMachine.new (pb_cipher : List Nat)
    (rw_cipher : List Nat) (rw_offset : Nat) (rw_setting : Nat)
    (mw_cipher : List Nat) (mw_offset : Nat) (mw_setting : Nat)
    (lw_cipher : List Nat) (lw_offset : Nat) (lw_setting : Nat)
    (rf_cipher : List Nat) : EnigmaMachine :=
  ⟨EnigmaWheel.new pb_cipher 0 0,
   EnigmaWheel.new rw_cipher rw_offset rw_setting,
   EnigmaWheel.new mw_cipher mw_offset mw_setting,
   EnigmaWheel.new lw_cipher lw_offset lw_setting,
   EnigmaWheel.new rf_cipher 0 0⟩

/-- `EnigmaMachine::set_triggers`: assigns turnover triggers to the right,
middle and left wheels. -/
def EnigmaMachine.set_triggers (m : EnigmaMachine)
    (rw_triggers mw_triggers lw_triggers : List Nat) : EnigmaMachine :=
  ⟨m.plugboard, m.right_wheel.set_triggers rw_triggers,
   m.middle_wheel.set_triggers mw_triggers,
   m.left_wheel.set_triggers lw_triggers, m.reflector⟩

/-- The stepping block of `EnigmaMachine::transform_message`: the right
wheel always rotates; the middle wheel rotates when the right one signals
turnover; the left wheel rotates when the middle one, so stepped, signals
turnover in turn. -/
def step_rotors (m : EnigmaMachine) : EnigmaMachine :=
  let r := m.right_wheel.rotate
  let mi := if r.2 then m.middle_wheel.rotate else (m.middle_wheel, false)
  let lw2 := if r.2 && mi.2 then (m.left_wheel.rotate).1 else m.left_wheel
  ⟨m.plugboard, r.1, mi.1, lw2, m.reflector⟩

/-- Body of the loop of `EnigmaMachine::transform_message` for one
character.  A letter is converted to the 1-based position `chr - 64`, sent
through the plugboard's `right_to_left`, then the rotors step, then the
position traverses right, middle, left wheels and the reflector
right-to-left and comes back left-to-right through the left, middle and
right wheels; the right wheel's result is pushed directly as the character
`pos + 64` — the code applies the plugboard only on the way in, with no
final plugboard stage.  Any other character passes through unchanged
without stepping. -/
def transform_char (m : EnigmaMachine) (chr : Nat) : Option (EnigmaMachine × Nat) :=
  if 64 < chr ∧ chr < 91 then
    let code := chr - 64
    (m.plugboard.right_to_left code).bind fun pos0 =>
      let m2 := step_rotors m
      (m2.right_wheel.right_to_left pos0).bind fun p1 =>
      (m2.middle_wheel.right_to_left p1).bind fun p2 =>
      (m2.left_wheel.right_to_left p2).bind fun p3 =>
      (m2.reflector.right_to_left p3).bind fun p4 =>
      (m2.left_wheel.left_to_right p4).bind fun p5 =>
      (m2.middle_wheel.left_to_right p5).bind fun p6 =>
      (m2.right_wheel.left_to_right p6).bind fun p7 =>
      if validCharNat (p7 + 64) then some (m2, p7 + 64) else none
  else some (m, chr)

/-- `EnigmaMachine::transform_message`: transforms the message character by
character, threading the (stepping) machine state through the loop. -/
def transform_message (m : EnigmaMachine) : List Nat → Option (EnigmaMachine × List Nat)
  | [] => some (m, [])
  | c :: rest =>
    (transform_char m c).bind fun r =>
      (transform_message r.1 rest).map fun r2 => (r2.1, r.2 :: r2.2)

/-- Modelled from the spec: `EnigmaMachine::set_rotor_positions(right,
middle, left)` is documented by the specification but absent from src/
(src/ contains only the wheel-level `EnigmaWheel::set_rotor_position` it
would delegate to).  Per the spec it resets the rotor positions of the
three rotating wheels and touches nothing else. -/
def EnigmaMachine.set_rotor_positions (m : EnigmaMachine)
    (right middle left : Nat) : EnigmaMachine :=
  ⟨m.plugboard, m.right_wheel.set_rotor_position right,
   m.middle_wheel.set_rotor_position middle,
   m.left_wheel.set_rotor_position left, m.reflector⟩

/-- The signal path as the specification words it: `right_to_left` on
plugboard, right, middle, left, reflector in that order, then
`left_to_right` on left, middle, right, plugboard in that order — the
plugboard first and last. -/
def signal_route (pb rw mw lw refl : EnigmaWheel) (code : Nat) : Option Nat :=
  pb.right_to_left code >>= rw.right_to_left >>= mw.right_to_left >>=
    lw.right_to_left >>= refl.right_to_left >>= lw.left_to_right >>=
    mw.left_to_right >>= rw.left_to_right >>= pb.left_to_right

/-- The 26 uppercase letter codes in order. -/
def alphabetCodes : List Nat := (List.range 26).map (fun i => i + 65)

/-- A wiring is well formed when it is a permutation of the alphabet. -/
def IsAlphaPerm (l : List Nat) : Prop := l.Perm alphabetCodes

/-- Iterated rotation of a wheel. -/
def rotateN (w : EnigmaWheel) : Nat → EnigmaWheel
  | 0 => w
  | n + 1 => ((rotateN w n).rotate).1

/-- The machine of the repository's own end-to-end test `test_full_machine`:
identity plugboard, wheels III, II, I at offsets 10, 2, 12 with ring 0,
reflector B, triggers right 22, middle 5, left 17. -/
def M0 : EnigmaMachine :=
  (EnigmaMachine.new (sc "ABCDEFGHIJKLMNOPQRSTUVWXYZ")
    (sc "BDFHJLCPRTXVZNYEIWGAKMUSQO") 10 0
    (sc "AJDKSIRUXBLHWTMCQGZNPYFVOE") 2 0
    (sc "EKMFLGDQVZNTOWYHXUSPAIBRCJ") 12 0
    (sc "YRUHQSLDPXNGOKMIEBFZCWVJAT")).set_triggers [22] [5] [17]

/-- A machine with well-formed (permutation) wirings on which
`transform_message` hits the '@' wiring lookup: all wirings the identity
except the reflector, which is the alphabet rotated by one. -/
def M3 : EnigmaMachine :=
  EnigmaMachine.new (sc "ABCDEFGHIJKLMNOPQRSTUVWXYZ")
    (sc "ABCDEFGHIJKLMNOPQRSTUVWXYZ") 25 0
    (sc "ABCDEFGHIJKLMNOPQRSTUVWXYZ") 0 0
    (sc "ABCDEFGHIJKLMNOPQRSTUVWXYZ") 0 0
    (sc "ZABCDEFGHIJKLMNOPQRSTUVWXY")

/-- A machine with well-formed wirings that emits the character '@': the
right wheel's wiring holds the letter looked up on the return leg at
index 25, so the final `left_to_right` yields position 0.  Identity
plugboard, middle and left wheels; right wheel "BADEFGHIJKLMNOPQRSTUVWXYZC"
at offset 25 (position 0 after the keystroke step); reflector
"ACBDEFGHIJKLMNOPQRSTUVWXYZ". -/
def M10 : EnigmaMachine :=
  EnigmaMachine.new (sc "ABCDEFGHIJKLMNOPQRSTUVWXYZ")
    (sc "BADEFGHIJKLMNOPQRSTUVWXYZC") 25 0
    (sc "ABCDEFGHIJKLMNOPQRSTUVWXYZ") 0 0
    (sc "ABCDEFGHIJKLMNOPQRSTUVWXYZ") 0 0
    (sc "ACBDEFGHIJKLMNOPQRSTUVWXYZ")

/-- A machine with a non-identity plugboard (the alphabet rotated so that
'A' sits at index 25) and identity wheels and reflector, on which the
absence of a final plugboard stage in the signal path is observable. -/
def M4 : EnigmaMachine :=
  EnigmaMachine.new (sc "BCDEFGHIJKLMNOPQRSTUVWXYZA")
    (sc "ABCDEFGHIJKLMNOPQRSTUVWXYZ") 0 0
    (sc "ABCDEFGHIJKLMNOPQRSTUVWXYZ") 0 0
    (sc "ABCDEFGHIJKLMNOPQRSTUVWXYZ") 0 0
    (sc "ABCDEFGHIJKLMNOPQRSTUVWXYZ")

/-- A wheel whose wiring routes position 1 through the letter 'Z', so the
position-space round trip panics on the return leg. -/
def W6 : EnigmaWheel := EnigmaWheel.new (sc "ZABCDEFGHIJKLMNOPQRSTUVWXY") 0 0

/-- The identity wheel at rotor position 0. -/
def Wid : EnigmaWheel := EnigmaWheel.new (sc "ABCDEFGHIJKLMNOPQRSTUVWXYZ") 0 0

/-- A wheel with a malformed wiring of length 3, accepted by `new`. -/
def Wbad : EnigmaWheel := EnigmaWheel.new [65, 66, 67] 0 0

/-- The identity wheel at position 0 with a single turnover trigger at 5. -/
def W7 : EnigmaWheel := Wid.set_triggers [5]

/-! ### Basic lemmas about the list helpers -/

theorem nthCode_eq_get? (l : List Nat) (n : Nat) : nthCode l n = l.get? n := by
  induction l generalizing n with
  | nil => cases n <;> rfl
  | cons x xs ih => cases n with
    | zero => rfl
    | succ k => simpa [nthCode] using ih k

theorem nthCode_mem {l : List Nat} {n c : Nat} (h : nthCode l n = some c) : c ∈ l := by
  rw [nthCode_eq_get?] at h
  exact List.get?_mem h

theorem nthCode_lt_length {l : List Nat} {n c : Nat} (h : nthCode l n = some c) :
    n < l.length := by
  rw [nthCode_eq_get?] at h
  exact List.get?_eq_some.1 h |>.1

theorem nthCode_exists_of_lt {l : List Nat} {n : Nat} (h : n < l.length) :
    ∃ c, nthCode l n = some c := by
  induction l generalizing n with
  | nil => simp at h
  | cons x xs ih =>
    cases n with
    | zero => exact ⟨x, rfl⟩
    | succ k => exact ih (by simpa using h)

theorem nthCode_inj {l : List Nat} {i j c : Nat} (hnd : l.Nodup)
    (hi : nthCode l i = some c) (hj : nthCode l j = some c) : i = j := by
  have hlen := nthCode_lt_length hi
  rw [nthCode_eq_get?] at hi hj
  exact List.get?_inj hlen hnd (hi.trans hj.symm)

theorem findIndex_nth {l : List Nat} {c j : Nat} (h : findIndex l c = some j) :
    nthCode l j = some c := by
  induction l generalizing j with
  | nil => simp [findIndex] at h
  | cons x xs ih =>
    by_cases hx : x = c
    · simp [findIndex, hx] at h
      subst h hx
      rfl
    · simp [findIndex, hx] at h
      obtain ⟨k, hk, rfl⟩ := h
      simpa [nthCode] using ih hk

theorem findIndex_exists_of_mem {l : List Nat} {c : Nat} (h : c ∈ l) :
    ∃ j, findIndex l c = some j := by
  induction l with
  | nil => simp at h
  | cons x xs ih =>
    by_cases hx : x = c
    · exact ⟨0, by simp [findIndex, hx]⟩
    · have hm : c ∈ xs := by
        rcases List.mem_cons.1 h with h1 | h1
        · exact absurd h1.symm hx
        · exact h1
      obtain ⟨j, hj⟩ := ih hm
      exact ⟨j + 1, by simp [findIndex, hx, hj]⟩

/-! ### Lemmas about well-formed wirings -/

theorem mem_alphabetCodes {c : Nat} : c ∈ alphabetCodes ↔ 65 ≤ c ∧ c < 91 := by
  simp only [alphabetCodes, List.mem_map, List.mem_range]
  constructor
  · rintro ⟨i, hi, rfl⟩
    omega
  · rintro ⟨h1, h2⟩
    exact ⟨c - 65, by omega, by omega⟩

theorem alphaPerm_length {l : List Nat} (h : IsAlphaPerm l) : l.length = 26 := by
  have := List.Perm.length_eq h
  simpa [alphabetCodes] using this

theorem alphaPerm_mem {l : List Nat} (h : IsAlphaPerm l) {c : Nat} :
    c ∈ l ↔ 65 ≤ c ∧ c < 91 := by
  rw [List.Perm.mem_iff h]
  exact mem_alphabetCodes

theorem alphaPerm_nodup {l : List Nat} (h : IsAlphaPerm l) : l.Nodup := by
  refine (List.Perm.nodup_iff h).2 ?_
  have halpha : alphabetCodes = (List.range 26).map (fun i => i + 65) := rfl
  rw [halpha]
  exact (List.nodup_range 26).map (fun a b hab => by omega)

theorem alphaPerm_nth_letter {l : List Nat} (h : IsAlphaPerm l) {n c : Nat}
    (hn : nthCode l n = some c) : 65 ≤ c ∧ c < 91 :=
  (alphaPerm_mem h).1 (nthCode_mem hn)

instance decIsAlphaPerm (l : List Nat) : Decidable (IsAlphaPerm l) :=
  inferInstanceAs (Decidable (l.Perm alphabetCodes))

theorem validCharNat_of_lt {n : Nat} (h : n < 55296) : validCharNat n = true := by
  simp only [validCharNat, Bool.or_eq_true, decide_eq_true_eq, Bool.and_eq_true]
  omega

/-! ### The position-space round trip of a single wheel -/

theorem left_to_right_lt {w : EnigmaWheel} {p q : Nat}
    (h : w.left_to_right p = some q) : q < 26 := by
  simp only [EnigmaWheel.left_to_right] at h
  split at h
  · rw [Option.bind_eq_some] at h
    obtain ⟨d, _, h⟩ := h
    have := Option.some.inj h
    omega
  · cases h

theorem right_to_left_lt {w : EnigmaWheel} {p q : Nat}
    (h : w.right_to_left p = some q) : q < 26 := by
  simp only [EnigmaWheel.right_to_left] at h
  split at h
  · cases h
  · rw [Option.bind_eq_some] at h
    obtain ⟨chr, hnth, h⟩ := h
    split at h
    · cases h
    · have := Option.some.inj h
      omega

/-- On a permutation wiring, `left_to_right` undoes `right_to_left`
whenever both return normally, up to the mod-26 reduction of the input. -/
theorem r2l_l2r_roundtrip {w : EnigmaWheel} (hperm : IsAlphaPerm w.cipher)
    (hrp : w.rotor_position < 26) {p q r : Nat}
    (h1 : w.right_to_left p = some q) (h2 : w.left_to_right q = some r) :
    r = p % 26 := by
  simp only [EnigmaWheel.right_to_left] at h1
  by_cases hz : p + w.rotor_position = 0
  · rw [if_pos hz] at h1; cases h1
  · rw [if_neg hz, Option.bind_eq_some] at h1
    obtain ⟨chr, hnth, h1⟩ := h1
    have hchr := alphaPerm_nth_letter hperm hnth
    rw [if_neg (by omega)] at h1
    have hq : q = (26 - w.rotor_position + (chr - 64)) % 26 :=
      (Option.some.inj h1).symm
    simp only [EnigmaWheel.left_to_right] at h2
    by_cases hval : validCharNat ((q + w.rotor_position) % 26 + 64) = true
    · rw [if_pos hval, Option.bind_eq_some] at h2
      obtain ⟨d, hfi, h2⟩ := h2
      have hr : r = (26 - w.rotor_position + (d + 1)) % 26 :=
        (Option.some.inj h2).symm
      have hnd := findIndex_nth hfi
      have hlet := alphaPerm_nth_letter hperm hnd
      have hidx : (q + w.rotor_position) % 26 + 64 = chr := by omega
      rw [hidx] at hnd
      have hd : d = (p + w.rotor_position - 1) % 26 :=
        nthCode_inj (alphaPerm_nodup hperm) hnd hnth
      omega
    · rw [if_neg (by simpa using hval)] at h2; cases h2

/-- C6 (counterexample): on the wheel `W6`, whose permutation wiring sends
position 1 through the letter 'Z', the round trip `left_to_right ∘
right_to_left` at position 1 panics instead of returning 1: the claim as
stated fails for this well-formed wheel and valid position. -/
theorem c6_counterexample :
    IsAlphaPerm W6.cipher ∧ W6.rotor_position < 26 ∧
      (W6.right_to_left 1).bind W6.left_to_right = none ∧
      ¬(W6.right_to_left 1).bind W6.left_to_right = some 1 := by
  refine ⟨by decide, by decide, by decide, by decide⟩

/-- C6 (amended): for every wheel with a permutation wiring and reduced
rotor position, whenever `right_to_left p` returns normally with value `q`
and `left_to_right q` also returns normally, the result is `p % 26` (hence
`p` itself for every position already reduced mod 26). -/
theorem c6_position_roundtrip (w : EnigmaWheel) (hperm : IsAlphaPerm w.cipher)
    (hrp : w.rotor_position < 26) (p q r : Nat)
    (h1 : w.right_to_left p = some q) (h2 : w.left_to_right q = some r) :
    r = p % 26 :=
  r2l_l2r_roundtrip hperm hrp h1 h2

/-- Witness for C6 (amended) at the identity wheel and position 1. -/
theorem c6_position_roundtrip_witness :
    Wid.right_to_left 1 = some 1 ∧ Wid.left_to_right 1 = some 1 ∧ 1 = 1 % 26 :=
  ⟨by decide, by decide,
    c6_position_roundtrip Wid (by decide) (by decide) 1 1 1 (by decide) (by decide)⟩

/-! ### The encipher/decipher inverse of a single wheel -/

theorem encipher_singleton (w : EnigmaWheel) (c : Nat) :
    w.encipher [c] = (w.encipher_char c).map fun o => [o] := by
  cases h : w.encipher_char c <;>
    simp [EnigmaWheel.encipher, h]

theorem decipher_singleton (w : EnigmaWheel) (c : Nat) :
    w.decipher [c] = (w.decipher_char c).map fun o => [o] := by
  cases h : w.decipher_char c <;>
    simp [EnigmaWheel.decipher, h]

/-- `decipher` inverts `encipher` on one letter, for a permutation wiring
and reduced rotor position and ring setting. -/
theorem decipher_encipher_char {w : EnigmaWheel} (hperm : IsAlphaPerm w.cipher)
    (hrp : w.rotor_position < 26) (hrs : w.ring_setting < 26) {L : Nat}
    (h1 : 64 < L) (h2 : L < 91) :
    (w.encipher_char L).bind w.decipher_char = some L := by
  obtain ⟨ec, hec⟩ := nthCode_exists_of_lt
    (l := w.cipher) (n := (L - 65 + (26 - w.rotor_position)) % 26)
    (by rw [alphaPerm_length hperm]; omega)
  have hecl := alphaPerm_nth_letter hperm hec
  have henc : w.encipher_char L =
      some (if ec + w.ring_setting > 90 then ec + w.ring_setting - 26
            else ec + w.ring_setting) := by
    simp only [EnigmaWheel.encipher_char, if_pos (And.intro h1 h2), hec,
      Option.some_bind]
    rw [if_pos (validCharNat_of_lt (by split <;> omega))]
  obtain ⟨j, hj⟩ := findIndex_exists_of_mem (nthCode_mem hec)
  have hji : j = (L - 65 + (26 - w.rotor_position)) % 26 :=
    nthCode_inj (alphaPerm_nodup hperm) (findIndex_nth hj) hec
  by_cases hover : ec + w.ring_setting > 90
  · rw [if_pos hover] at henc
    rw [henc, Option.some_bind]
    simp only [EnigmaWheel.decipher_char]
    rw [if_pos (show 64 < ec + w.ring_setting - 26 ∧ ec + w.ring_setting - 26 < 91
      by omega)]
    rw [if_neg (show ¬ec + w.ring_setting - 26 < w.ring_setting by omega)]
    rw [if_pos (show ec + w.ring_setting - 26 - w.ring_setting < 65 by omega)]
    rw [show ec + w.ring_setting - 26 - w.ring_setting + 26 = ec by omega]
    rw [if_pos (validCharNat_of_lt (by omega))]
    rw [hj, Option.some_bind]
    rw [if_pos (validCharNat_of_lt (by omega))]
    exact congrArg some (by omega)
  · rw [if_neg hover] at henc
    rw [henc, Option.some_bind]
    simp only [EnigmaWheel.decipher_char]
    rw [if_pos (show 64 < ec + w.ring_setting ∧ ec + w.ring_setting < 91 by omega)]
    rw [if_neg (show ¬ec + w.ring_setting < w.ring_setting by omega)]
    rw [if_neg (show ¬ec + w.ring_setting - w.ring_setting < 65 by omega)]
    rw [show ec + w.ring_setting - w.ring_setting = ec by omega]
    rw [if_pos (validCharNat_of_lt (by omega))]
    rw [hj, Option.some_bind]
    rw [if_pos (validCharNat_of_lt (by omega))]
    exact congrArg some (by omega)

/-- `encipher` inverts `decipher` on one letter, for a permutation wiring
and reduced rotor position and ring setting. -/
theorem encipher_decipher_char {w : EnigmaWheel} (hperm : IsAlphaPerm w.cipher)
    (hrp : w.rotor_position < 26) (hrs : w.ring_setting < 26) {L : Nat}
    (h1 : 64 < L) (h2 : L < 91) :
    (w.decipher_char L).bind w.encipher_char = some L := by
  simp only [EnigmaWheel.decipher_char]
  rw [if_pos (And.intro h1 h2), if_neg (show ¬L < w.ring_setting by omega)]
  by_cases hlow : L - w.ring_setting < 65
  · rw [if_pos hlow, if_pos (validCharNat_of_lt (by omega))]
    obtain ⟨j, hj⟩ := findIndex_exists_of_mem
      ((alphaPerm_mem hperm).2 (show 65 ≤ L - w.ring_setting + 26 ∧
        L - w.ring_setting + 26 < 91 by omega))
    rw [hj, Option.some_bind]
    have hjn := findIndex_nth hj
    have hjlt : j < 26 := by
      have := nthCode_lt_length hjn
      rwa [alphaPerm_length hperm] at this
    rw [if_pos (validCharNat_of_lt (by omega)), Option.some_bind]
    simp only [EnigmaWheel.encipher_char]
    rw [if_pos (show 64 < (j + w.rotor_position) % 26 + 65 ∧
      (j + w.rotor_position) % 26 + 65 < 91 by omega)]
    rw [show ((j + w.rotor_position) % 26 + 65 - 65 + (26 - w.rotor_position)) % 26 = j
      by omega]
    rw [hjn, Option.some_bind]
    rw [if_pos (show L - w.ring_setting + 26 + w.ring_setting > 90 by omega)]
    rw [if_pos (validCharNat_of_lt (by omega))]
    exact congrArg some (by omega)
  · rw [if_neg hlow, if_pos (validCharNat_of_lt (by omega))]
    obtain ⟨j, hj⟩ := findIndex_exists_of_mem
      ((alphaPerm_mem hperm).2 (show 65 ≤ L - w.ring_setting ∧
        L - w.ring_setting < 91 by omega))
    rw [hj, Option.some_bind]
    have hjn := findIndex_nth hj
    have hjlt : j < 26 := by
      have := nthCode_lt_length hjn
      rwa [alphaPerm_length hperm] at this
    rw [if_pos (validCharNat_of_lt (by omega)), Option.some_bind]
    simp only [EnigmaWheel.encipher_char]
    rw [if_pos (show 64 < (j + w.rotor_position) % 26 + 65 ∧
      (j + w.rotor_position) % 26 + 65 < 91 by omega)]
    rw [show ((j + w.rotor_position) % 26 + 65 - 65 + (26 - w.rotor_position)) % 26 = j
      by omega]
    rw [hjn, Option.some_bind]
    rw [if_neg (show ¬L - w.ring_setting + w.ring_setting > 90 by omega)]
    rw [if_pos (validCharNat_of_lt (by omega))]
    exact congrArg some (by omega)

/-- C5: for every uppercase letter L, permutation wiring, and reduced
rotor position and ring setting, deciphering the encipherment of L (and
enciphering the decipherment of L) yields L again, with the wheel state
fixed across the pair of calls. -/
theorem c5_encipher_decipher_inverse (w : EnigmaWheel)
    (hperm : IsAlphaPerm w.cipher) (hrp : w.rotor_position < 26)
    (hrs : w.ring_setting < 26) (L : Nat) (h1 : 64 < L) (h2 : L < 91) :
    (w.encipher [L]).bind w.decipher = some [L] ∧
      (w.decipher [L]).bind w.encipher = some [L] := by
  constructor
  · rw [encipher_singleton]
    cases hE : w.encipher_char L with
    | none =>
      have hcd := decipher_encipher_char hperm hrp hrs h1 h2
      rw [hE] at hcd
      cases hcd
    | some E =>
      have hcd := decipher_encipher_char hperm hrp hrs h1 h2
      rw [hE, Option.some_bind] at hcd
      simp [decipher_singleton, hcd]
  · rw [decipher_singleton]
    cases hE : w.decipher_char L with
    | none =>
      have hcd := encipher_decipher_char hperm hrp hrs h1 h2
      rw [hE] at hcd
      cases hcd
    | some E =>
      have hcd := encipher_decipher_char hperm hrp hrs h1 h2
      rw [hE, Option.some_bind] at hcd
      simp [encipher_singleton, hcd]

/-- Witness for C5 at the identity wheel and the letter 'A'. -/
theorem c5_encipher_decipher_inverse_witness :
    (Wid.encipher [65]).bind Wid.decipher = some [65] ∧
      (Wid.decipher [65]).bind Wid.encipher = some [65] :=
  c5_encipher_decipher_inverse Wid (by decide) (by decide) (by decide) 65
    (by decide) (by decide)

/-! ### Rotation stepping -/

theorem rotateN_rotor_position (w : EnigmaWheel) (h : w.rotor_position < 26) :
    ∀ n, (rotateN w n).rotor_position = (w.rotor_position + n) % 26 := by
  intro n
  induction n with
  | zero => simpa using (Nat.mod_eq_of_lt h).symm
  | succ k ih =>
    show ((rotateN w k).rotate).1.rotor_position = _
    simp only [EnigmaWheel.rotate]
    rw [ih]
    omega

/-- C7: `rotate` increments the rotor position by exactly 1 mod 26 and
returns true exactly when the new position is one of the triggers; 26
successive rotations restore the rotor position; and starting from
position 0, each value t < 26 (in particular each configured trigger) is
the new position of exactly one of the 26 rotations of a cycle. -/
theorem c7_rotate_stepping (w : EnigmaWheel) (t : Nat)
    (h : w.rotor_position < 26) :
    ((w.rotate).1.rotor_position = (w.rotor_position + 1) % 26 ∧
      ((w.rotate).2 = true ↔ (w.rotor_position + 1) % 26 ∈ w.triggers)) ∧
    (rotateN w 26).rotor_position = w.rotor_position ∧
    (w.rotor_position = 0 → t < 26 →
      ∃! i, i < 26 ∧ (rotateN w (i + 1)).rotor_position = t) := by
  refine ⟨⟨?_, ?_⟩, ?_, ?_⟩
  · simp [EnigmaWheel.rotate]
  · simp [EnigmaWheel.rotate, List.contains]
  · rw [rotateN_rotor_position w h 26]
    omega
  · intro h0 ht
    refine ⟨(t + 25) % 26, ⟨by omega, ?_⟩, ?_⟩
    · rw [rotateN_rotor_position w h]
      omega
    · rintro j ⟨hj1, hj2⟩
      rw [rotateN_rotor_position w h] at hj2
      omega

/-- Witness for C7 at the identity wheel with trigger set {5}. -/
theorem c7_rotate_stepping_witness :
    ((W7.rotate).1.rotor_position = (W7.rotor_position + 1) % 26 ∧
      ((W7.rotate).2 = true ↔ (W7.rotor_position + 1) % 26 ∈ W7.triggers)) ∧
    (rotateN W7 26).rotor_position = W7.rotor_position ∧
    (W7.rotor_position = 0 → 5 < 26 →
      ∃! i, i < 26 ∧ (rotateN W7 (i + 1)).rotor_position = 5) :=
  c7_rotate_stepping W7 5 (by decide)

/-! ### The signal path of the machine -/

/-- C4 (code bug): the code does not apply the plugboard last.  On the
machine `M4` (plugboard "BCDEFGHIJKLMNOPQRSTUVWXYZA", identity wheels and
reflector), the letter 'A' is transformed to 'B' (code 66): the right
wheel's `left_to_right` result is pushed directly.  The specification's
signal path — which routes the returning position through the plugboard's
`left_to_right` as the final stage — would yield 'A' (code 65) instead,
so the claimed routing is false of the program. -/
theorem c4_plugboard_not_last :
    transform_char M4 65 = some (step_rotors M4, 66) ∧
    (signal_route (step_rotors M4).plugboard (step_rotors M4).right_wheel
      (step_rotors M4).middle_wheel (step_rotors M4).left_wheel
      (step_rotors M4).reflector (65 - 64)).map (fun p => p + 64) = some 65 ∧
    (66 : Nat) ≠ 65 := by
  refine ⟨by decide, by decide, by decide⟩

/-! ### Resetting rotor positions -/

/-- C9: `set_rotor_positions` stores the three rotor positions (mod 26)
and leaves every wheel's wiring, ring setting and triggers — and the
plugboard and reflector entirely — unchanged. -/
theorem c9_set_rotor_positions (m : EnigmaMachine) (r mid l : Nat) :
    (m.set_rotor_positions r mid l).right_wheel.rotor_position = r % 26 ∧
    (m.set_rotor_positions r mid l).middle_wheel.rotor_position = mid % 26 ∧
    (m.set_rotor_positions r mid l).left_wheel.rotor_position = l % 26 ∧
    (m.set_rotor_positions r mid l).right_wheel.cipher = m.right_wheel.cipher ∧
    (m.set_rotor_positions r mid l).right_wheel.ring_setting =
      m.right_wheel.ring_setting ∧
    (m.set_rotor_positions r mid l).right_wheel.triggers =
      m.right_wheel.triggers ∧
    (m.set_rotor_positions r mid l).middle_wheel.cipher =
      m.middle_wheel.cipher ∧
    (m.set_rotor_positions r mid l).middle_wheel.ring_setting =
      m.middle_wheel.ring_setting ∧
    (m.set_rotor_positions r mid l).middle_wheel.triggers =
      m.middle_wheel.triggers ∧
    (m.set_rotor_positions r mid l).left_wheel.cipher = m.left_wheel.cipher ∧
    (m.set_rotor_positions r mid l).left_wheel.ring_setting =
      m.left_wheel.ring_setting ∧
    (m.set_rotor_positions r mid l).left_wheel.triggers =
      m.left_wheel.triggers ∧
    (m.set_rotor_positions r mid l).plugboard = m.plugboard ∧
    (m.set_rotor_positions r mid l).reflector = m.reflector :=
  ⟨rfl, rfl, rfl, rfl, rfl, rfl, rfl, rfl, rfl, rfl, rfl, rfl, rfl, rfl⟩

/-! ### Range of the machine output -/

theorem transform_char_letter_bound {m m2 : EnigmaMachine} {c o : Nat}
    (h : transform_char m c = some (m2, o)) (h1 : 64 < c) (h2 : c < 91) :
    64 ≤ o ∧ o < 90 := by
  simp only [transform_char, if_pos (And.intro h1 h2), Option.bind_eq_some] at h
  obtain ⟨p0, _, p1, _, p2, _, p3, _, p4, _, p5, _, p6, _, p7, hp7, hfin⟩ := h
  have hlt : p7 < 26 := left_to_right_lt hp7
  split at hfin
  · have ho : p7 + 64 = o := congrArg Prod.snd (Option.some.inj hfin)
    omega
  · cases hfin

/-- C10 (amended): whenever `transform_message` returns normally, every
output character standing where the input had an uppercase letter has a
code in [64, 90), i.e. is one of '@'..'Y': the final position of the
signal chain is always reduced mod 26, so 'Z' is never emitted, and the
position 0 — emitting '@' — is reachable. -/
theorem c10_output_range {m : EnigmaMachine} {msg : List Nat}
    {res : EnigmaMachine × List Nat} (h : transform_message m msg = some res) :
    res.2.length = msg.length ∧
      ∀ pr ∈ msg.zip res.2, 64 < pr.1 → pr.1 < 91 → 64 ≤ pr.2 ∧ pr.2 < 90 := by
  induction msg generalizing m res with
  | nil =>
    simp only [transform_message] at h
    obtain rfl := Option.some.inj h
    simp
  | cons c rest ih =>
    simp only [transform_message, Option.bind_eq_some] at h
    obtain ⟨r, hc, hrest⟩ := h
    rw [Option.map_eq_some'] at hrest
    obtain ⟨r2, hrest, rfl⟩ := hrest
    obtain ⟨ih1, ih2⟩ := ih hrest
    constructor
    · simpa using ih1
    · intro pr hpr hl1 hl2
      rw [List.zip_cons_cons, List.mem_cons] at hpr
      rcases hpr with hpr | hpr
      · subst hpr
        exact transform_char_letter_bound hc hl1 hl2
      · exact ih2 pr hpr hl1 hl2

/-- Witness for C10 (amended): the machine `M10` on the message "A",
whose output character '@' (code 64) sits at the bottom of the range. -/
theorem c10_output_range_witness :
    transform_message M10 [65] = some (step_rotors M10, [64]) ∧
      (([64] : List Nat).length = ([65] : List Nat).length ∧
        ∀ pr ∈ ([65] : List Nat).zip ([64] : List Nat),
          64 < pr.1 → pr.1 < 91 → 64 ≤ pr.2 ∧ pr.2 < 90) :=
  ⟨by decide,
    @c10_output_range M10 [65] (step_rotors M10, [64]) (by decide)⟩

/-- C10 (counterexample): the machine `M10` — all wirings well-formed
permutations — transforms the letter 'A' (code 65) to the character '@'
(code 64), which is not an uppercase letter, while returning normally. -/
theorem c10_counterexample :
    IsAlphaPerm M10.plugboard.cipher ∧ IsAlphaPerm M10.right_wheel.cipher ∧
    IsAlphaPerm M10.middle_wheel.cipher ∧ IsAlphaPerm M10.left_wheel.cipher ∧
    IsAlphaPerm M10.reflector.cipher ∧
    (transform_message M10 [65]).map Prod.snd = some [64] ∧
    ¬(65 ≤ 64 ∧ 64 < 91) := by
  refine ⟨by decide, by decide, by decide, by decide, by decide, by decide,
    by decide⟩

/-! ### Concrete machine-level facts -/

/-- C2: the machine of the repository's `test_full_machine` — identity
plugboard, wheels "BDFHJLCPRTXVZNYEIWGAKMUSQO" offset 10 ring 0,
"AJDKSIRUXBLHWTMCQGZNPYFVOE" offset 2 ring 0, "EKMFLGDQVZNTOWYHXUSPAIBRCJ"
offset 12 ring 0, reflector "YRUHQSLDPXNGOKMIEBFZCWVJAT", triggers right
22, middle 5, left 17 — transforms "QMJIDO MZWZJFJR" to exactly
"ENIGMA REVEALED". -/
theorem c2_known_answer :
    (transform_message M0 (sc "QMJIDO MZWZJFJR")).map Prod.snd =
      some (sc "ENIGMA REVEALED") := by
  decide

/-- C1 (code bug): on the same machine configuration, the first
application of `transform_message` yields "ENIGMA REVEALED", but applying
`transform_message` to that result with rotor positions reset to the
identical starting values (a fresh `M0`) panics — `None.unwrap` in
`left_to_right` on the letter derived from 'Z' — instead of restoring the
original message: the self-inverse property fails on the repository's own
test vector. -/
theorem c1_self_inverse_fails :
    (transform_message M0 (sc "QMJIDO MZWZJFJR")).map Prod.snd =
      some (sc "ENIGMA REVEALED") ∧
    transform_message M0 (sc "ENIGMA REVEALED") = none := by
  refine ⟨by decide, by decide⟩

/-- C3 (code bug): a machine whose five wirings are all well-formed
permutations on which `transform_message` of the single letter "A"
panics (`None.unwrap` on the '@' wiring lookup in `left_to_right`):
the transform is not total. -/
theorem c3_transform_panics :
    IsAlphaPerm M3.plugboard.cipher ∧ IsAlphaPerm M3.right_wheel.cipher ∧
    IsAlphaPerm M3.middle_wheel.cipher ∧ IsAlphaPerm M3.left_wheel.cipher ∧
    IsAlphaPerm M3.reflector.cipher ∧
    transform_message M3 (sc "A") = none := by
  refine ⟨by decide, by decide, by decide, by decide, by decide, by decide⟩

/-! ### Construction performs no validation -/

/-- C8 (counterexample): `EnigmaWheel::new` accepts the malformed
three-letter wiring "ABC" (wrong length, 23 letters missing) without any
error signal, and even `encipher` then returns normally on the letter
'A': malformed wiring is accepted silently rather than rejected at
construction. -/
theorem c8_counterexample :
    Wbad.cipher = [65, 66, 67] ∧ Wbad.cipher.length ≠ 26 ∧
      Wbad.encipher [65] = some [65] := by
  refine ⟨rfl, by decide, by decide⟩

/-- C8 (amended): construction performs no wiring validation at all:
`EnigmaWheel::new` stores any cipher unchanged (reducing only the offset
and ring setting mod 26), and `EnigmaMachine::new` stores all five
wirings unchanged. -/
theorem c8_no_validation (c : List Nat) (o s : Nat) (pb rw mw lw rf : List Nat)
    (ro rs mo ms lo ls : Nat) :
    EnigmaWheel.new c o s = ⟨c, o % 26, s % 26, []⟩ ∧
    (EnigmaMachine.new pb rw ro rs mw mo ms lw lo ls rf).plugboard.cipher = pb ∧
    (EnigmaMachine.new pb rw ro rs mw mo ms lw lo ls rf).right_wheel.cipher = rw ∧
    (EnigmaMachine.new pb rw ro rs mw mo ms lw lo ls rf).middle_wheel.cipher = mw ∧
    (EnigmaMachine.new pb rw ro rs mw mo ms lw lo ls rf).left_wheel.cipher = lw ∧
    (EnigmaMachine.new pb rw ro rs mw mo ms lw lo ls rf).reflector.cipher = rf :=
  ⟨rfl, rfl, rfl, rfl, rfl, rfl⟩

end Enigma
